import Mathlib

/-!
Verification development for the custom JSON stringifier
(src/lib/customjson.ts): a shallow embedding of the marker API
(Double / isDoubleNumber / markAsDouble), the recursive encoder
(serializeValue), the reflow pretty-printer (prettyPrint) and the
top-level stringify, together with proofs about the frozen claims.
-/

namespace CustomJson

/-- JS numbers as the encoder observes them: a finite number carries its
mathematical value (a rational, standing for the float's exact value) and
the text `String(n)` renders it as (shortest round-trippable decimal text;
float formatting itself is outside the model, so the text is carried as
data).  Non-finite numbers are Infinity, -Infinity and NaN. -/
inductive JSNum where
  | finite (val : ℚ) (txt : String)
  | posInf
  | negInf
  | nan
deriving DecidableEq

/-- Model of the JS global isFinite on a number. -/
def JSNum.isFiniteNum : JSNum → Bool
  | .finite _ _ => true
  | _ => false

/-- Model of Number.isInteger on a (finite) numeric value: the
mathematical value is an integer. -/
def JSNum.isIntegerNum : JSNum → Bool
  | .finite q _ => q.den = 1
  | _ => false

/-- Model of String(n) for a finite number: the carried text. -/
def JSNum.render : JSNum → String
  | .finite _ t => t
  | .posInf => "Infinity"
  | .negInf => "-Infinity"
  | .nan => "NaN"

/-- Closed universe of JS values as the encoder dispatches on them
(one constructor per typed category of serializeValue's dispatch chain).
`double` is a Number object carrying the DOUBLE_MARKER; its second field
models a toJSON property that could also sit on the same wrapper object,
which the source never consults for marked numbers (the marker check
precedes the toJSON check).  `custom` is any other object exposing a
zero-argument toJSON, modelled by the value that call returns.  The
DOUBLE_MARKER symbol is module-private in the source, so no other
constructor can carry the marker. -/
inductive JSValue where
  | undef
  | jsNull
  | boolean (b : Bool)
  | number (x : JSNum)
  | strVal (s : String)
  | funcVal
  | symVal
  | double (x : JSNum) (tj : Option JSValue)
  | date (iso : String)
  | custom (conv : JSValue)
  | arr (items : List JSValue)
  | obj (fields : List (String × JSValue))
deriving Inhabited

-- ---------------------------------------------------------------------
-- Marker API (source lines 49-93)
-- ---------------------------------------------------------------------

/-- Double(n) from the source: throws TypeError unless the argument is a
primitive number (typeof n === 'number'); otherwise returns the Number
object wrapper with the DOUBLE_MARKER set.  The thrown TypeError is
modelled by the error branch. -/
def Double (v : JSValue) : Except String JSValue :=
  match v with
  | .number x => .ok (.double x none)
  | _ => .error ("Double() expects a number")

/-- isDoubleNumber from the source: typeof value === 'object', value not
null, and the DOUBLE_MARKER property is true.  In the model exactly the
`double` constructor satisfies all three. -/
def isDoubleNumber : JSValue → Bool
  | .double _ _ => true
  | _ => false

/-- valueOf() readback on a wrapper (Number object) or primitive number. -/
def numValueOf : JSValue → Option JSNum
  | .number x => some x
  | .double x _ => some x
  | _ => none

/-- Body of markAsDouble's per-key update: if the current value of the
key is a primitive number, replace it with Double(value); otherwise
leave the pair unchanged. -/
def wrapNumPair (p : String × JSValue) : String × JSValue :=
  match p.2 with
  | .number x => (p.1, .double x none)
  | _ => p

/-- One iteration of markAsDouble's loop: update the key k in place. -/
def markKey (o : List (String × JSValue)) (k : String) : List (String × JSValue) :=
  o.map (fun p => if p.1 = k then wrapNumPair p else p)

/-- markAsDouble from the source (lines 81-93): for each listed key, if
the key currently holds a primitive number, replace it in place with the
Double wrapper; the (mutated) object is returned.  JS objects are
modelled as insertion-ordered association lists. -/
def markAsDouble (o : List (String × JSValue)) (keys : List String) : List (String × JSValue) :=
  keys.foldl markKey o

-- ---------------------------------------------------------------------
-- String escaping (source lines 100-124)
-- ---------------------------------------------------------------------

/-- Lower-case hex digit, as produced by Number.prototype.toString(16). -/
def hexDigit (n : Nat) : Char :=
  if n < 10 then Char.ofNat ('0'.toNat + n) else Char.ofNat ('a'.toNat + (n - 10))

/-- Per-character replacement of escapeString's regex: the ESCAPE_MAP
entries first, then the \u00XX fallback for the remaining control
characters, all other characters pass through. -/
def escChar (c : Char) : List Char :=
  if c = '"' then ['\\', '"']
  else if c = '\\' then ['\\', '\\']
  else if c = '\x08' then ['\\', 'b']
  else if c = '\x0c' then ['\\', 'f']
  else if c = '\n' then ['\\', 'n']
  else if c = '\r' then ['\\', 'r']
  else if c = '\t' then ['\\', 't']
  else if c.toNat < 0x20 then ['\\', 'u', '0', '0', hexDigit (c.toNat / 16), hexDigit (c.toNat % 16)]
  else [c]

/-- Character-list form of escapeString. -/
def escList : List Char → List Char
  | [] => []
  | c :: cs => escChar c ++ escList cs

/-- escapeString from the source: replace quote, backslash and the
control range 0x00-0x1F, character by character. -/
def escapeString (s : String) : String := String.mk (escList s.data)

-- ---------------------------------------------------------------------
-- Encoder (source lines 134-216)
-- ---------------------------------------------------------------------

/-- Array.prototype.join(',') on a list of fragments. -/
def joinComma : List String → String
  | [] => ""
  | [p] => p
  | p :: q :: rest => p ++ "," ++ joinComma (q :: rest)

mutual

/-- serializeValue from the source, case for case in the source's
dispatch order: omit-signal (none) for undefined / function / symbol;
null, booleans, strings; the Double wrapper (checked before the toJSON
check, hence its tj field is never consulted); plain numbers; dates;
toJSON objects (recurse on the conversion result); arrays; plain
objects; the final defensive fallback cannot arise in the closed
universe. -/
def serializeValue : JSValue → Option String
  | .undef => none
  | .funcVal => none
  | .symVal => none
  | .jsNull => some ("null")
  | .boolean b => some (if b then ("true") else ("false"))
  | .strVal s => some ("\"" ++ escapeString s ++ "\"")
  | .double x _ =>
      some (if x.isFiniteNum then (if x.isIntegerNum then x.render ++ ".0" else x.render)
            else ("null"))
  | .number x => some (if x.isFiniteNum then x.render else ("null"))
  | .date iso => some ("\"" ++ iso ++ "\"")
  | .custom conv => serializeValue conv
  | .arr items => some ("[" ++ joinComma (serializeList items) ++ "]")
  | .obj fields => some ("\x7b" ++ joinComma (serializeFields fields) ++ "\x7d")

/-- Element-wise encoding of an array: serializeValue(item) ?? 'null'. -/
def serializeList : List JSValue → List String
  | [] => []
  | v :: vs => ((serializeValue v).getD ("null")) :: serializeList vs

/-- Pair-wise encoding of an object: keys whose value serializes to
undefined are dropped, the others render as "escaped-key":value. -/
def serializeFields : List (String × JSValue) → List String
  | [] => []
  | (k, v) :: fs =>
      match serializeValue v with
      | none => serializeFields fs
      | some sv => ("\"" ++ escapeString k ++ "\":" ++ sv) :: serializeFields fs

end

-- ---------------------------------------------------------------------
-- Reflow pretty-printer (source lines 229-301)
-- ---------------------------------------------------------------------

/-- indent.repeat(n) as a character list. -/
def repeatChars (indent : String) : Nat → List Char
  | 0 => []
  | n + 1 => indent.data ++ repeatChars indent n

/-- Character loop of prettyPrint.  Arguments mirror the loop state:
inString, depth, and the previously consumed input character json[i-1]
(none at the start).  Inside a string a backslash copies the following
character verbatim and advances past it (a trailing lone backslash
copies just itself, as the source's join drops the undefined it pushes).
An opening bracket consults the next input character, a closing bracket
the previous one.  The source keeps depth in a JS number; on text
reaching this function through stringify the depth never decrements at
zero, so a Nat with truncated subtraction models it. -/
def ppGo (indent : String) : Bool → Nat → Option Char → List Char → List Char
  | _, _, _, [] => []
  | true, depth, _, c :: rest =>
      if c = '\\' then
        match rest with
        | [] => [c]
        | d :: rest2 => c :: d :: ppGo indent true depth (some d) rest2
      else if c = '"' then c :: ppGo indent false depth (some c) rest
      else c :: ppGo indent true depth (some c) rest
  | false, depth, prevc, c :: rest =>
      if c = '"' then c :: ppGo indent true depth (some c) rest
      else if c = '{' ∨ c = '[' then
        if rest.head? = some '}' ∨ rest.head? = some ']' then
          c :: ppGo indent false depth (some c) rest
        else
          c :: '\n' :: (repeatChars indent (depth + 1) ++ ppGo indent false (depth + 1) (some c) rest)
      else if c = '}' ∨ c = ']' then
        if prevc = some '{' ∨ prevc = some '[' then
          c :: ppGo indent false depth (some c) rest
        else
          '\n' :: (repeatChars indent (depth - 1) ++ (c :: ppGo indent false (depth - 1) (some c) rest))
      else if c = ',' then
        c :: '\n' :: (repeatChars indent depth ++ ppGo indent false depth (some c) rest)
      else if c = ':' then
        c :: ' ' :: ppGo indent false depth (some c) rest
      else c :: ppGo indent false depth (some c) rest

/-- prettyPrint from the source: scan the minified text once, starting
outside any string at depth 0. -/
def prettyPrint (json : String) (indent : String) : String :=
  String.mk (ppGo indent false 0 none json.data)

-- ---------------------------------------------------------------------
-- Top-level stringify (source lines 331-361)
-- ---------------------------------------------------------------------

/-- The space parameter of stringify: a number (a count of spaces; the
claims concern counts, so it is carried as a Nat), a string, or null.
An absent parameter is Option.none at the call site. -/
inductive Space where
  | count (n : Nat)
  | text (s : String)
  | jsNull

/-- JS falsiness of the space parameter (the source's !space): absent,
null, 0 and the empty string are falsy. -/
def spaceFalsy : Option Space → Bool
  | none => true
  | some .jsNull => true
  | some (.count n) => n == 0
  | some (.text s) => s == ""

/-- Normalization of a truthy space parameter to the indent unit:
a number becomes that many spaces capped at 10, a string is capped at
10 characters.  (The null/absent branches sit behind the falsy check
and are unreachable.) -/
def spaceIndent : Option Space → String
  | some (.count n) => String.mk (List.replicate (min n 10) ' ')
  | some (.text s) => String.mk (s.data.take 10)
  | _ => ""

/-- stringify from the source.  The replacer parameter is accepted by
the source and never consulted, so it is not part of the model.  Returns
none exactly when serializeValue yields the omit-signal. -/
def stringify (value : JSValue) (space : Option Space) : Option String :=
  match serializeValue value with
  | none => none
  | some serialized =>
      if spaceFalsy space then some serialized
      else
        let indent := spaceIndent space
        if indent = "" then some serialized
        else some (prettyPrint serialized indent)

-- ---------------------------------------------------------------------
-- Spec-side auxiliaries for the claims
-- ---------------------------------------------------------------------

/-- JSON whitespace characters (space, tab, newline, carriage return). -/
def jsonWs (c : Char) : Bool := c = ' ' || c = '\t' || c = '\n' || c = '\r'

/-- Modelled from the spec: one character of the claim's "removing all
whitespace characters that lie outside string literals".  The state is
(inString, escaped), with the same string discipline as the printer
(a backslash escapes one character, an unescaped quote toggles);
outside strings whitespace is dropped and everything else kept, inside
strings everything is kept. -/
def swsStep : Bool × Bool → Char → (Bool × Bool) × List Char
  | (true, true), c => ((true, false), [c])
  | (true, false), c =>
      if c = '\\' then ((true, true), [c])
      else if c = '"' then ((false, false), [c])
      else ((true, false), [c])
  | (false, e), c =>
      if c = '"' then ((true, false), [c])
      else if jsonWs c then ((false, e), [])
      else ((false, e), [c])

/-- Whitespace-outside-strings removal over a character list, returning
the final scanner state together with the output. -/
def swsRun : Bool × Bool → List Char → (Bool × Bool) × List Char
  | st, [] => (st, [])
  | st, c :: rest =>
      let r := swsStep st c
      let r2 := swsRun r.1 rest
      (r2.1, r.2 ++ r2.2)

/-- Whitespace removal outside string literals, over a whole text. -/
def stripWs (s : String) : String := String.mk (swsRun (false, false) s.data).2

/-- Modelled from the spec: one character of the extraction of string
literal contents.  The state is the buffer of the literal currently
open (none when outside) plus the escaped flag; a literal's content is
emitted when its closing quote is reached. -/
def extStep : Option (List Char) × Bool → Char → (Option (List Char) × Bool) × List (List Char)
  | (some buf, true), c => ((some (buf ++ [c]), false), [])
  | (some buf, false), c =>
      if c = '\\' then ((some (buf ++ [c]), true), [])
      else if c = '"' then ((none, false), [buf])
      else ((some (buf ++ [c]), false), [])
  | (none, e), c =>
      if c = '"' then ((some [], false), [])
      else ((none, e), [])

/-- Literal-content extraction over a character list. -/
def extRun : Option (List Char) × Bool → List Char → (Option (List Char) × Bool) × List (List Char)
  | st, [] => (st, [])
  | st, c :: rest =>
      let r := extStep st c
      let r2 := extRun r.1 rest
      (r2.1, r.2 ++ r2.2)

/-- String literal contents of a text, as strings. -/
def stringLiterals (s : String) : List String :=
  ((extRun (none, false) s.data).2).map String.mk

/-- Characters String(n) can produce for a finite number: digits, sign,
decimal point, exponent marker. -/
def numChar (c : Char) : Bool :=
  c.isDigit || c = '-' || c = '+' || c = '.' || c = 'e' || c = 'E'

/-- A faithfully populated JSNum: the carried String(n) text of a finite
number is a nonempty numeric token. -/
def goodNumRender : JSNum → Bool
  | .finite _ t => (!t.data.isEmpty) && t.data.all numChar
  | _ => true

/-- A faithfully populated Date ISO text: toISOString never contains a
quote or a backslash. -/
def goodISO (iso : String) : Bool := iso.data.all (fun c => c != '"' && c != '\\')

mutual

/-- A value populated the way the JS runtime populates it: every finite
number's text is a numeric token and every date's ISO text is quote- and
backslash-free.  (The tj field of a wrapper is never serialized, so it
is unconstrained.) -/
def wellFormed : JSValue → Bool
  | .undef => true
  | .funcVal => true
  | .symVal => true
  | .jsNull => true
  | .boolean _ => true
  | .strVal _ => true
  | .number x => goodNumRender x
  | .double x _ => goodNumRender x
  | .date iso => goodISO iso
  | .custom conv => wellFormed conv
  | .arr items => wellFormedList items
  | .obj fields => wellFormedFields fields

/-- wellFormed over the elements of an array. -/
def wellFormedList : List JSValue → Bool
  | [] => true
  | v :: vs => wellFormed v && wellFormedList vs

/-- wellFormed over the values of an object. -/
def wellFormedFields : List (String × JSValue) → Bool
  | [] => true
  | (_, v) :: fs => wellFormed v && wellFormedFields fs

end

/-- Modelled from the spec: C7's description of the indent
normalization, independent of stringify's control flow — absent or null
yields the empty indent, a numeric count that many spaces capped at 10,
a string itself capped at 10 characters. -/
def specIndent : Option Space → String
  | none => ""
  | some .jsNull => ""
  | some (.count n) => String.mk (List.replicate (min n 10) ' ')
  | some (.text s) => String.mk (s.data.take 10)

/-- A character the printer copies verbatim outside strings: not a
quote, bracket, comma or colon. -/
def ppNeutral (c : Char) : Prop :=
  c ≠ '"' ∧ c ≠ '{' ∧ c ≠ '[' ∧ c ≠ '}' ∧ c ≠ ']' ∧ c ≠ ',' ∧ c ≠ ':'

/-- A character of a scalar token of encoder output: copied verbatim by
the printer and kept by the whitespace stripper. -/
def tokSafe (c : Char) : Prop := ppNeutral c ∧ jsonWs c = false

instance (c : Char) : Decidable (ppNeutral c) := by
  unfold ppNeutral
  infer_instance

instance (c : Char) : Decidable (tokSafe c) := by
  unfold tokSafe
  infer_instance

/-- Shape of the escaped content of a string literal in encoder output:
a sequence of escape pairs (backslash followed by any character) and
plain characters that are neither a quote nor a backslash.  escapeString
always produces this shape, and it is what makes the printer, the
stripper and the extractor walk a literal without leaving it. -/
inductive EscOK : List Char → Prop where
  | nil : EscOK []
  | pair (c : Char) {rest : List Char} : EscOK rest → EscOK ('\\' :: c :: rest)
  | plain {c : Char} {rest : List Char} :
      c ≠ '"' → c ≠ '\\' → EscOK rest → EscOK (c :: rest)

/-- The invariant carried through encoder output at nesting depth d:
the text is nonempty, starts with no closing bracket, ends with no
opening bracket, and the printer maps it (in any context) to an output
from which stripping whitespace recovers the text exactly (for
whitespace indents) and whose string literal contents are unchanged
(for quote-free indents). -/
def Bundle (indent : String) (d : Nat) (cs : List Char) : Prop :=
  cs ≠ [] ∧
  (∀ c, cs.head? = some c → c ≠ '}' ∧ c ≠ ']') ∧
  (∀ c, cs.getLast? = some c → c ≠ '{' ∧ c ≠ '[') ∧
  ∃ out lits,
    (∀ p rest, ppGo indent false d p (cs ++ rest) =
        out ++ ppGo indent false d cs.getLast? rest) ∧
    ((∀ c ∈ indent.data, jsonWs c = true) →
        swsRun (false, false) out = ((false, false), cs)) ∧
    extRun (none, false) cs = ((none, false), lits) ∧
    ((∀ c ∈ indent.data, c ≠ '"') →
        extRun (none, false) out = ((none, false), lits))

end CustomJson

namespace CustomJson

-- ---------------------------------------------------------------------
-- Helper lemmas for the marker API
-- ---------------------------------------------------------------------

theorem wrapNumPair_fst (p : String × JSValue) : (wrapNumPair p).1 = p.1 := by
  cases p with
  | mk k v => cases v <;> rfl

theorem wrapNumPair_idem (p : String × JSValue) :
    wrapNumPair (wrapNumPair p) = wrapNumPair p := by
  cases p with
  | mk k v => cases v <;> rfl

theorem numValueOf_wrapNumPair (p : String × JSValue) :
    numValueOf (wrapNumPair p).2 = numValueOf p.2 := by
  cases p with
  | mk k v => cases v <;> rfl

/-- Characterization of markAsDouble: each pair whose key is listed and
whose value is a primitive number gets wrapped once; everything else is
untouched. -/
theorem markAsDouble_eq (o : List (String × JSValue)) (keys : List String) :
    markAsDouble o keys = o.map (fun p => if p.1 ∈ keys then wrapNumPair p else p) := by
  induction keys generalizing o with
  | nil =>
      simp [markAsDouble]
  | cons k ks ih =>
      have step : markAsDouble o (k :: ks) = markAsDouble (markKey o k) ks := rfl
      rw [step, ih, markKey, List.map_map]
      have hfun : ((fun p => if p.1 ∈ ks then wrapNumPair p else p) ∘
            fun p => if p.1 = k then wrapNumPair p else p) =
          fun p : String × JSValue => if p.1 ∈ k :: ks then wrapNumPair p else p := by
        funext p
        by_cases hk : p.1 = k
        · by_cases hm : p.1 ∈ ks <;>
            simp [Function.comp, hk, hm, wrapNumPair_fst, wrapNumPair_idem]
        · by_cases hm : p.1 ∈ ks <;>
            simp [Function.comp, hk, hm]
      rw [hfun]

-- ---------------------------------------------------------------------
-- Helper lemmas for the encoder
-- ---------------------------------------------------------------------

theorem serializeList_eq_map (items : List JSValue) :
    serializeList items = items.map (fun v => (serializeValue v).getD ("null")) := by
  induction items with
  | nil => rfl
  | cons v vs ih => simp [serializeList, ih]

theorem serializeFields_filter (fields : List (String × JSValue)) :
    serializeFields (fields.filter (fun p => (serializeValue p.2).isSome)) =
      serializeFields fields := by
  induction fields with
  | nil => rfl
  | cons f fs ih =>
      obtain ⟨k, v⟩ := f
      cases hv : serializeValue v with
      | none => simp [List.filter, hv, serializeFields, ih]
      | some sv => simp [List.filter, hv, serializeFields, ih]

-- ---------------------------------------------------------------------
-- Claim C1
-- ---------------------------------------------------------------------

/-- C1: a Double-wrapped value is rendered before (and regardless of)
any attached toJSON conversion; a non-finite wrapped value renders as
null; a mathematically integral wrapped value renders as its text
followed by ".0"; any other finite wrapped value renders as its plain
text.  The universally quantified tj field shows the toJSON check is
never reached for wrappers, and the den = 1 test coincides with
mathematical integrality of the value.  The two spec examples
wrap(5) = 5.0 and wrap(5.5) = 5.5 are instances. -/
theorem C1_double_rendering :
    (∀ (q : ℚ) (t : String) (tj : Option JSValue),
        serializeValue (.double (.finite q t) tj) =
          some (if q.den = 1 then t ++ ".0" else t)) ∧
    (∀ tj, serializeValue (.double .posInf tj) = some ("null")) ∧
    (∀ tj, serializeValue (.double .negInf tj) = some ("null")) ∧
    (∀ tj, serializeValue (.double .nan tj) = some ("null")) ∧
    (∀ q : ℚ, q.den = 1 ↔ ∃ m : ℤ, q = (m : ℚ)) ∧
    serializeValue (.double (.finite 5 ("5")) none) = some ("5.0") ∧
    serializeValue (.double (.finite ⟨11, 2, by decide, by decide⟩ ("5.5")) none) =
      some ("5.5") := by
  refine ⟨?_, fun tj => rfl, fun tj => rfl, fun tj => rfl, ?_, rfl, rfl⟩
  · intro q t tj
    by_cases h : q.den = 1 <;>
      simp [serializeValue, JSNum.isFiniteNum, JSNum.isIntegerNum, JSNum.render, h]
  · intro q
    rw [Rat.den_eq_one_iff]
    constructor
    · intro h
      exact ⟨q.num, h.symm⟩
    · rintro ⟨m, rfl⟩
      simp

-- ---------------------------------------------------------------------
-- Claim C5
-- ---------------------------------------------------------------------

/-- C5: arrays keep one rendered element per input position (an element
whose encoding is the omit-signal renders as null via getD, so the part
list has exactly the input's length), while objects drop omit-valued
keys entirely: filtering them away beforehand does not change the
object's encoding. -/
theorem C5_sequences_vs_mappings :
    (∀ items : List JSValue,
        serializeValue (.arr items) =
          some ("[" ++ joinComma (serializeList items) ++ "]") ∧
        serializeList items = items.map (fun v => (serializeValue v).getD ("null")) ∧
        (serializeList items).length = items.length) ∧
    (∀ fields : List (String × JSValue),
        serializeValue (.obj fields) =
          serializeValue (.obj (fields.filter (fun p => (serializeValue p.2).isSome)))) := by
  constructor
  · intro items
    refine ⟨rfl, serializeList_eq_map items, ?_⟩
    rw [serializeList_eq_map]
    simp
  · intro fields
    simp [serializeValue, serializeFields_filter]

-- ---------------------------------------------------------------------
-- Claim C6
-- ---------------------------------------------------------------------

/-- C6: whenever the encoder yields the omit-signal, stringify returns
the not-serializable result none for every space parameter; the root
omit cases are exactly undefined, functions and symbols; a null input
yields the string "null"; and none is distinct from every string
result. -/
theorem C6_root_omit_vs_null :
    (∀ (v : JSValue) (sp : Option Space),
        serializeValue v = none → stringify v sp = none) ∧
    serializeValue .undef = none ∧
    serializeValue .funcVal = none ∧
    serializeValue .symVal = none ∧
    stringify .jsNull none = some ("null") ∧
    (∀ s : String, (none : Option String) ≠ some s) := by
  refine ⟨?_, rfl, rfl, rfl, rfl, fun s h => by cases h⟩
  intro v sp h
  simp [stringify, h]

/-- C6 witness: a symbol root with a pretty-print request is still
rejected as not serializable. -/
theorem C6_root_omit_vs_null_w :
    stringify .symVal (some (.count 2)) = none :=
  C6_root_omit_vs_null.1 .symVal (some (.count 2)) rfl

-- ---------------------------------------------------------------------
-- Claim C7
-- ---------------------------------------------------------------------

/-- C7: for every serializable value, stringify returns the minified
text when the (absent, null, numeric or string) space parameter
normalizes to the empty indent, and otherwise the reflow of the
minified text under the normalized indent — a numeric count becomes
that many spaces capped at 10, a string is itself capped at 10
characters (specIndent is that normalization, written from the claim's
words). -/
theorem C7_space_normalization :
    ∀ (v : JSValue) (s : String) (sp : Option Space),
      serializeValue v = some s →
      stringify v sp =
        (if specIndent sp = "" then some s else some (prettyPrint s (specIndent sp))) := by
  intro v s sp h
  match sp with
  | none => simp [stringify, h, spaceFalsy, specIndent]
  | some .jsNull => simp [stringify, h, spaceFalsy, specIndent]
  | some (.count n) =>
      cases n with
      | zero => simp [stringify, h, spaceFalsy, specIndent]
      | succ m =>
          have hfalsy : spaceFalsy (some (.count (m + 1))) = false := by
            simp [spaceFalsy]
          have hne : spaceIndent (some (.count (m + 1))) ≠ "" := by
            show String.mk (List.replicate (min (m + 1) 10) ' ') ≠ String.mk []
            intro hm
            injection hm with h2
            have h3 := congrArg List.length h2
            rw [List.length_replicate] at h3
            simp only [List.length_nil] at h3
            omega
          have hspec : specIndent (some (.count (m + 1))) =
              spaceIndent (some (.count (m + 1))) := rfl
          rw [hspec]
          simp [stringify, h, hfalsy, hne]
  | some (.text t) =>
      by_cases ht : t = ""
      · simp [stringify, h, spaceFalsy, specIndent, ht]
      · have hfalsy : spaceFalsy (some (.text t)) = false := by
          simp [spaceFalsy, ht]
        have hdata : t.data ≠ [] := by
          intro hd
          exact ht (by cases t; simp at hd; simp [hd])
        have hne : spaceIndent (some (.text t)) ≠ "" := by
          show String.mk (t.data.take 10) ≠ String.mk []
          intro hm
          injection hm with h2
          rcases List.take_eq_nil_iff.mp h2 with h3 | h3
          · exact absurd h3 (by omega)
          · exact hdata h3
        have hspec : specIndent (some (.text t)) = spaceIndent (some (.text t)) := rfl
        rw [hspec]
        simp [stringify, h, hfalsy, hne]

/-- C7 witness: a numeric space of 2 on the null root produces the
reflowed text of "null" under a two-space indent. -/
theorem C7_space_normalization_w :
    stringify .jsNull (some (.count 2)) =
      (if specIndent (some (.count 2)) = "" then some ("null")
       else some (prettyPrint ("null") (specIndent (some (.count 2))))) :=
  C7_space_normalization .jsNull ("null") (some (.count 2)) rfl

-- ---------------------------------------------------------------------
-- Claim C8
-- ---------------------------------------------------------------------

/-- C8: Double succeeds exactly on primitive numbers (finite or not),
producing the marked wrapper whose valueOf readback is the argument,
and raises TypeError on everything else; isDoubleNumber is a total
boolean test that accepts exactly the wrappers and in particular
rejects null and undefined without throwing (totality is by
construction in the model). -/
theorem C8_marker_api :
    (∀ x : JSNum,
        Double (.number x) = .ok (.double x none) ∧
        isDoubleNumber (.double x none) = true ∧
        numValueOf (.double x none) = some x) ∧
    (∀ v : JSValue, (∀ x : JSNum, v ≠ .number x) →
        Double v = .error ("Double() expects a number")) ∧
    (∀ v : JSValue, isDoubleNumber v = true → ∃ x tj, v = .double x tj) ∧
    isDoubleNumber .jsNull = false ∧
    isDoubleNumber .undef = false := by
  refine ⟨fun x => ⟨rfl, rfl, rfl⟩, ?_, ?_, rfl, rfl⟩
  · intro v hv
    cases v with
    | number x => exact absurd rfl (hv x)
    | _ => rfl
  · intro v hv
    cases v with
    | double x tj => exact ⟨x, tj, rfl⟩
    | _ => simp [isDoubleNumber] at hv

/-- C8 witness: a string argument is rejected with the TypeError, and a
non-finite number is still wrapped and marked. -/
theorem C8_marker_api_w :
    Double (.strVal ("x")) = .error ("Double() expects a number") ∧
    Double (.number .nan) = .ok (.double .nan none) ∧
    isDoubleNumber (.double .nan none) = true := by
  refine ⟨C8_marker_api.2.1 (.strVal ("x")) (fun x h => by cases h), ?_, ?_⟩
  · exact (C8_marker_api.1 .nan).1
  · exact (C8_marker_api.1 .nan).2.1

-- ---------------------------------------------------------------------
-- Claim C9
-- ---------------------------------------------------------------------

/-- C9: markAsDouble replaces in place exactly the listed keys whose
value is a primitive number with the marked wrapper of the same numeric
value (wrapNumPair), leaves every other pair untouched, and preserves
the key structure of the object (no key added or removed, so absent
listed keys are silently skipped). -/
theorem C9_markFields :
    ∀ (o : List (String × JSValue)) (keys : List String),
      markAsDouble o keys =
        o.map (fun p => if p.1 ∈ keys then wrapNumPair p else p) ∧
      (markAsDouble o keys).map Prod.fst = o.map Prod.fst := by
  intro o keys
  refine ⟨markAsDouble_eq o keys, ?_⟩
  rw [markAsDouble_eq, List.map_map]
  congr 1
  funext p
  by_cases h : p.1 ∈ keys <;> simp [Function.comp, h, wrapNumPair_fst]

-- ---------------------------------------------------------------------
-- Claim C10
-- ---------------------------------------------------------------------

/-- C10: marking is idempotent — a second application with the same
keys changes nothing, since a wrapped value is no longer of primitive
number type and is skipped — and the numeric readback (valueOf) at
every position is unchanged by marking. -/
theorem C10_markFields_idempotent :
    ∀ (o : List (String × JSValue)) (keys : List String),
      markAsDouble (markAsDouble o keys) keys = markAsDouble o keys ∧
      ∀ i : ℕ,
        ((markAsDouble o keys)[i]?).map (fun p => numValueOf p.2) =
          (o[i]?).map (fun p => numValueOf p.2) := by
  intro o keys
  constructor
  · rw [markAsDouble_eq, markAsDouble_eq, List.map_map]
    congr 1
    funext p
    by_cases h : p.1 ∈ keys <;>
      simp [Function.comp, h, wrapNumPair_fst, wrapNumPair_idem]
  · intro i
    rw [markAsDouble_eq, List.getElem?_map]
    cases o[i]? with
    | none => rfl
    | some p =>
        by_cases h : p.1 ∈ keys <;> simp [h, numValueOf_wrapNumPair]

-- ---------------------------------------------------------------------
-- Claim C2
-- ---------------------------------------------------------------------

/-- C2 counterexample: "[1]" is encoder output, yet the reflow pass
with the empty indent unit still inserts newlines around the element,
so it is not the identity on encoder output. -/
theorem C2_cex :
    serializeValue (.arr [.number (.finite 1 ("1"))]) = some ("[1]") ∧
    prettyPrint ("[1]") ("") ≠ ("[1]") := by
  exact ⟨rfl, by decide⟩

/-- C2 (amended): minification idempotence holds at the stringify
level, not at the reflow level — an empty (or absent) indent makes
stringify return the minified text unchanged because the reflow pass is
bypassed; reflow itself with an empty indent unit still inserts
newlines and colon spacing. -/
theorem C2_minify_idempotence :
    ∀ (v : JSValue) (s : String), serializeValue v = some s →
      stringify v (some (.text (""))) = some s ∧ stringify v none = some s := by
  intro v s h
  constructor <;> simp [stringify, h, spaceFalsy]

/-- C2 witness: the amended statement at the array [1]. -/
theorem C2_minify_idempotence_w :
    stringify (.arr [.number (.finite 1 ("1"))]) (some (.text (""))) = some ("[1]") :=
  (C2_minify_idempotence (.arr [.number (.finite 1 ("1"))]) ("[1]") rfl).1

end CustomJson

namespace CustomJson

-- ---------------------------------------------------------------------
-- Scanner lemmas (stripper and extractor)
-- ---------------------------------------------------------------------

theorem swsRun_append (st : Bool × Bool) (xs ys : List Char) :
    swsRun st (xs ++ ys) =
      ((swsRun (swsRun st xs).1 ys).1,
        (swsRun st xs).2 ++ (swsRun (swsRun st xs).1 ys).2) := by
  induction xs generalizing st with
  | nil => simp [swsRun]
  | cons c rest ih => simp [swsRun, ih, List.append_assoc]

theorem extRun_append (st : Option (List Char) × Bool) (xs ys : List Char) :
    extRun st (xs ++ ys) =
      ((extRun (extRun st xs).1 ys).1,
        (extRun st xs).2 ++ (extRun (extRun st xs).1 ys).2) := by
  induction xs generalizing st with
  | nil => simp [extRun]
  | cons c rest ih => simp [extRun, ih, List.append_assoc]

theorem jsonWs_ne_quote {c : Char} (h : jsonWs c = true) : c ≠ '"' := by
  intro he
  subst he
  exact absurd h (by decide)

theorem swsRun00_keep {c : Char} (hq : c ≠ '"') (hw : jsonWs c = false) (xs : List Char) :
    swsRun (false, false) (c :: xs) =
      ((swsRun (false, false) xs).1, c :: (swsRun (false, false) xs).2) := by
  simp [swsRun, swsStep, hq, hw]

theorem swsRun00_ws {c : Char} (hw : jsonWs c = true) (xs : List Char) :
    swsRun (false, false) (c :: xs) = swsRun (false, false) xs := by
  simp [swsRun, swsStep, jsonWs_ne_quote hw, hw]

theorem swsRun00_wsList {l : List Char} (h : ∀ c ∈ l, jsonWs c = true) (xs : List Char) :
    swsRun (false, false) (l ++ xs) = swsRun (false, false) xs := by
  induction l with
  | nil => simp
  | cons c rest ih =>
      rw [List.cons_append, swsRun00_ws (h c (by simp))]
      exact ih (fun c hc => h c (by simp [hc]))

theorem swsRun00_chunk {a a2 : List Char}
    (ha : swsRun (false, false) a = ((false, false), a2)) (xs : List Char) :
    swsRun (false, false) (a ++ xs) =
      ((swsRun (false, false) xs).1, a2 ++ (swsRun (false, false) xs).2) := by
  rw [swsRun_append, ha]

theorem swsRun_tok {tok : List Char} (h : ∀ c ∈ tok, c ≠ '"' ∧ jsonWs c = false) :
    swsRun (false, false) tok = ((false, false), tok) := by
  induction tok with
  | nil => rfl
  | cons c rest ih =>
      rw [swsRun00_keep (h c (by simp)).1 (h c (by simp)).2,
        ih (fun c hc => h c (by simp [hc]))]

theorem extRun00_skip {c : Char} (hq : c ≠ '"') (xs : List Char) :
    extRun (none, false) (c :: xs) = extRun (none, false) xs := by
  simp [extRun, extStep, hq]

theorem extRun00_skipList {l : List Char} (h : ∀ c ∈ l, c ≠ '"') (xs : List Char) :
    extRun (none, false) (l ++ xs) = extRun (none, false) xs := by
  induction l with
  | nil => simp
  | cons c rest ih =>
      rw [List.cons_append, extRun00_skip (h c (by simp))]
      exact ih (fun c hc => h c (by simp [hc]))

theorem extRun_skipAll {l : List Char} (h : ∀ c ∈ l, c ≠ '"') :
    extRun (none, false) l = ((none, false), []) := by
  have := extRun00_skipList h []
  simpa using this

theorem extRun00_chunk {a : List Char} {la : List (List Char)}
    (ha : extRun (none, false) a = ((none, false), la)) (xs : List Char) :
    extRun (none, false) (a ++ xs) =
      ((extRun (none, false) xs).1, la ++ (extRun (none, false) xs).2) := by
  rw [extRun_append, ha]

-- ---------------------------------------------------------------------
-- EscOK: escaped string content
-- ---------------------------------------------------------------------

theorem escOK_append {a b : List Char} (ha : EscOK a) (hb : EscOK b) : EscOK (a ++ b) := by
  induction ha with
  | nil => simpa using hb
  | pair c _ ih => exact .pair c ih
  | plain h1 h2 _ ih => exact .plain h1 h2 ih

theorem hexDigit_ne : ∀ n < 16, hexDigit n ≠ '"' ∧ hexDigit n ≠ '\\' := by decide

theorem escOK_escChar (c : Char) : EscOK (escChar c) := by
  unfold escChar
  split_ifs with h1 h2 h3 h4 h5 h6 h7 h8
  · exact .pair _ .nil
  · exact .pair _ .nil
  · exact .pair _ .nil
  · exact .pair _ .nil
  · exact .pair _ .nil
  · exact .pair _ .nil
  · exact .pair _ .nil
  · have hdiv := hexDigit_ne (c.toNat / 16) (by omega)
    have hmod := hexDigit_ne (c.toNat % 16) (Nat.mod_lt _ (by decide))
    exact .pair _ (.plain (by decide) (by decide)
      (.plain (by decide) (by decide)
        (.plain hdiv.1 hdiv.2 (.plain hmod.1 hmod.2 .nil))))
  · exact .plain h1 h2 .nil

theorem escOK_escList (cs : List Char) : EscOK (escList cs) := by
  induction cs with
  | nil => exact .nil
  | cons c rest ih => exact escOK_append (escOK_escChar c) ih

theorem escOK_plainList {cs : List Char} (h : ∀ c ∈ cs, c ≠ '"' ∧ c ≠ '\\') :
    EscOK cs := by
  induction cs with
  | nil => exact .nil
  | cons c rest ih =>
      exact .plain (h c (by simp)).1 (h c (by simp)).2
        (ih (fun c hc => h c (by simp [hc])))

-- ---------------------------------------------------------------------
-- Walking a string literal
-- ---------------------------------------------------------------------

theorem ppGo_inString_esc (indent : String) (d : Nat) (p : Option Char)
    (c : Char) (ys : List Char) :
    ppGo indent true d p ('\\' :: c :: ys) = '\\' :: c :: ppGo indent true d (some c) ys := by
  simp [ppGo]

theorem ppGo_inString_plain (indent : String) (d : Nat) (p : Option Char)
    {c : Char} (hq : c ≠ '"') (hb : c ≠ '\\') (ys : List Char) :
    ppGo indent true d p (c :: ys) = c :: ppGo indent true d (some c) ys := by
  cases ys with
  | nil => simp only [ppGo]; rw [if_neg hb, if_neg hq]
  | cons a ys2 => simp only [ppGo]; rw [if_neg hb, if_neg hq]

theorem ppGo_inString_close (indent : String) (d : Nat) (p : Option Char)
    (ys : List Char) :
    ppGo indent true d p ('"' :: ys) = '"' :: ppGo indent false d (some '"') ys := by
  cases ys with
  | nil => simp [ppGo]
  | cons a ys2 => simp [ppGo]

theorem ppGo_inString (indent : String) {E : List Char} (hE : EscOK E) :
    ∀ (d : Nat) (p : Option Char) (rest : List Char),
      ppGo indent true d p (E ++ '"' :: rest) =
        E ++ '"' :: ppGo indent false d (some '"') rest := by
  induction hE with
  | nil =>
      intro d p rest
      rw [List.nil_append, ppGo_inString_close, List.nil_append]
  | pair c _ ih =>
      intro d p rest
      rw [List.cons_append, List.cons_append, ppGo_inString_esc, ih d (some c) rest]
      rfl
  | plain h1 h2 _ ih =>
      intro d p rest
      rw [List.cons_append, ppGo_inString_plain indent d p h1 h2, ih d _ rest]
      rfl

theorem swsRun_inString {E : List Char} (hE : EscOK E) :
    swsRun (true, false) E = ((true, false), E) := by
  induction hE with
  | nil => rfl
  | pair c _ ih => simp [swsRun, swsStep, ih]
  | plain h1 h2 _ ih => simp [swsRun, swsStep, h1, h2, ih]

theorem extRun_inString {E : List Char} (hE : EscOK E) :
    ∀ buf : List Char, extRun (some buf, false) E = ((some (buf ++ E), false), []) := by
  induction hE with
  | nil => intro buf; simp [extRun]
  | pair c _ ih =>
      intro buf
      simp [extRun, extStep, ih, List.append_assoc]
  | plain h1 h2 _ ih =>
      intro buf
      simp [extRun, extStep, h1, h2, ih, List.append_assoc]

theorem swsRun_lit {E : List Char} (hE : EscOK E) :
    swsRun (false, false) ('"' :: E ++ ['"']) = ((false, false), '"' :: E ++ ['"']) := by
  show swsRun (false, false) ('"' :: (E ++ ['"'])) = _
  simp only [swsRun]
  rw [show swsStep (false, false) '"' = ((true, false), ['"']) from by simp [swsStep]]
  rw [swsRun_append, swsRun_inString hE]
  simp [swsRun, swsStep]

theorem extRun_lit {E : List Char} (hE : EscOK E) :
    extRun (none, false) ('"' :: E ++ ['"']) = ((none, false), [E]) := by
  show extRun (none, false) ('"' :: (E ++ ['"'])) = _
  simp only [extRun]
  rw [show extStep (none, false) '"' = ((some [], false), []) from by simp [extStep]]
  rw [extRun_append, extRun_inString hE []]
  simp [extRun, extStep]

-- ---------------------------------------------------------------------
-- Tokens the printer copies verbatim
-- ---------------------------------------------------------------------

theorem ppGo_neutral_cons (indent : String) (d : Nat) (p : Option Char) {c : Char}
    (h : ppNeutral c) (xs : List Char) :
    ppGo indent false d p (c :: xs) = c :: ppGo indent false d (some c) xs := by
  obtain ⟨h1, h2, h3, h4, h5, h6, h7⟩ := h
  simp only [ppGo]
  rw [if_neg h1, if_neg (by simp [h2, h3]), if_neg (by simp [h4, h5]),
    if_neg h6, if_neg h7]

theorem ppGo_tok (indent : String) {tok : List Char} (hne : tok ≠ [])
    (h : ∀ c ∈ tok, ppNeutral c) :
    ∀ (d : Nat) (p : Option Char) (rest : List Char),
      ppGo indent false d p (tok ++ rest) =
        tok ++ ppGo indent false d tok.getLast? rest := by
  induction tok with
  | nil => exact absurd rfl hne
  | cons c t ih =>
      intro d p rest
      cases t with
      | nil =>
          rw [List.cons_append, List.nil_append,
            ppGo_neutral_cons indent d p (h c (by simp)) rest]
          rfl
      | cons a t2 =>
          rw [List.cons_append,
            ppGo_neutral_cons indent d p (h c (by simp)),
            ih (by simp) (fun c hc => h c (by simp [hc])) d (some c) rest,
            List.getLast?_cons_cons]
          rfl

end CustomJson

namespace CustomJson

-- ---------------------------------------------------------------------
-- Printer steps outside strings
-- ---------------------------------------------------------------------

theorem ppGo_openQuote (indent : String) (d : Nat) (p : Option Char) (xs : List Char) :
    ppGo indent false d p ('"' :: xs) = '"' :: ppGo indent true d (some '"') xs := by
  simp [ppGo]

theorem ppGo_open (indent : String) (d : Nat) (p : Option Char) {o : Char}
    (ho : o = '{' ∨ o = '[') {xs : List Char}
    (hx : ¬(xs.head? = some '}' ∨ xs.head? = some ']')) :
    ppGo indent false d p (o :: xs) =
      o :: '\n' :: (repeatChars indent (d + 1) ++ ppGo indent false (d + 1) (some o) xs) := by
  have hq : o ≠ '"' := by rcases ho with h | h <;> subst h <;> decide
  simp only [ppGo]
  rw [if_neg hq, if_pos ho, if_neg hx]

theorem ppGo_open_nosplit (indent : String) (d : Nat) (p : Option Char) {o : Char}
    (ho : o = '{' ∨ o = '[') {xs : List Char}
    (hx : xs.head? = some '}' ∨ xs.head? = some ']') :
    ppGo indent false d p (o :: xs) = o :: ppGo indent false d (some o) xs := by
  have hq : o ≠ '"' := by rcases ho with h | h <;> subst h <;> decide
  simp only [ppGo]
  rw [if_neg hq, if_pos ho, if_pos hx]

theorem ppGo_close (indent : String) (d : Nat) {p : Option Char} {cl : Char}
    (hc : cl = '}' ∨ cl = ']')
    (hp : ¬(p = some '{' ∨ p = some '[')) (xs : List Char) :
    ppGo indent false d p (cl :: xs) =
      '\n' :: (repeatChars indent (d - 1) ++ (cl :: ppGo indent false (d - 1) (some cl) xs)) := by
  have hq : cl ≠ '"' := by rcases hc with h | h <;> subst h <;> decide
  have hbr : ¬(cl = '{' ∨ cl = '[') := by rcases hc with h | h <;> subst h <;> decide
  simp only [ppGo]
  rw [if_neg hq, if_neg hbr, if_pos hc, if_neg hp]

theorem ppGo_close_nosplit (indent : String) (d : Nat) {p : Option Char} {cl : Char}
    (hc : cl = '}' ∨ cl = ']')
    (hp : p = some '{' ∨ p = some '[') (xs : List Char) :
    ppGo indent false d p (cl :: xs) = cl :: ppGo indent false d (some cl) xs := by
  have hq : cl ≠ '"' := by rcases hc with h | h <;> subst h <;> decide
  have hbr : ¬(cl = '{' ∨ cl = '[') := by rcases hc with h | h <;> subst h <;> decide
  simp only [ppGo]
  rw [if_neg hq, if_neg hbr, if_pos hc, if_pos hp]

theorem ppGo_comma (indent : String) (d : Nat) (p : Option Char) (xs : List Char) :
    ppGo indent false d p (',' :: xs) =
      ',' :: '\n' :: (repeatChars indent d ++ ppGo indent false d (some ',') xs) := by
  simp [ppGo]

theorem ppGo_colon (indent : String) (d : Nat) (p : Option Char) (xs : List Char) :
    ppGo indent false d p (':' :: xs) = ':' :: ' ' :: ppGo indent false d (some ':') xs := by
  simp [ppGo]

-- ---------------------------------------------------------------------
-- Small list facts
-- ---------------------------------------------------------------------

theorem mem_repeatChars {indent : String} {n : Nat} {c : Char}
    (h : c ∈ repeatChars indent n) : c ∈ indent.data := by
  induction n with
  | zero => simp [repeatChars] at h
  | succ m ih =>
      simp only [repeatChars, List.mem_append] at h
      rcases h with h | h
      · exact h
      · exact ih h

theorem getLast?_cons_some (a : Char) (l : List Char) : ∃ c, (a :: l).getLast? = some c := by
  induction l generalizing a with
  | nil => exact ⟨a, rfl⟩
  | cons b t ih => rw [List.getLast?_cons_cons]; exact ih b

theorem mem_of_getLast?_eq {l : List Char} {c : Char} (h : l.getLast? = some c) : c ∈ l := by
  induction l with
  | nil => simp at h
  | cons a t ih =>
      cases t with
      | nil =>
          simp [List.getLast?] at h
          simp [h]
      | cons b t2 =>
          rw [List.getLast?_cons_cons] at h
          exact List.mem_cons_of_mem a (ih h)

-- ---------------------------------------------------------------------
-- Bundle combinators
-- ---------------------------------------------------------------------

theorem bundle_tok (indent : String) (d : Nat) {tok : List Char} (hne : tok ≠ [])
    (h : ∀ c ∈ tok, tokSafe c) : Bundle indent d tok := by
  have hneu : ∀ c ∈ tok, ppNeutral c := fun c hc => (h c hc).1
  refine ⟨hne, ?_, ?_, tok, [], ?_, ?_, ?_, ?_⟩
  · intro c hc
    have hmem : c ∈ tok := by
      cases tok with
      | nil => simp at hc
      | cons a t =>
          simp at hc
          simp [hc]
    obtain ⟨h1, h2, h3, h4, h5, h6, h7⟩ := hneu c hmem
    exact ⟨h4, h5⟩
  · intro c hc
    obtain ⟨h1, h2, h3, h4, h5, h6, h7⟩ := hneu c (mem_of_getLast?_eq hc)
    exact ⟨h2, h3⟩
  · intro p rest
    exact ppGo_tok indent hne hneu d p rest
  · intro _
    exact swsRun_tok (fun c hc => ⟨(hneu c hc).1, (h c hc).2⟩)
  · exact extRun_skipAll (fun c hc => (hneu c hc).1)
  · intro _
    exact extRun_skipAll (fun c hc => (hneu c hc).1)

theorem bundle_lit (indent : String) (d : Nat) {E : List Char} (hE : EscOK E) :
    Bundle indent d ('"' :: E ++ ['"']) := by
  have hlast : ('"' :: E ++ ['"']).getLast? = some '"' := by
    rw [show '"' :: E ++ ['"'] = ('"' :: E) ++ ['"'] from rfl,
      List.getLast?_append_of_ne_nil _ (by simp)]
    rfl
  refine ⟨by simp, ?_, ?_, '"' :: E ++ ['"'], [E], ?_, ?_, ?_, ?_⟩
  · intro c hc
    simp at hc
    subst hc
    exact ⟨by decide, by decide⟩
  · intro c hc
    rw [hlast] at hc
    injection hc with hc
    subst hc
    exact ⟨by decide, by decide⟩
  · intro p rest
    have hshape : ('"' :: E ++ ['"']) ++ rest = '"' :: (E ++ '"' :: rest) := by simp
    rw [hshape, ppGo_openQuote, ppGo_inString indent hE d (some '"') rest, hlast]
    simp
  · intro _
    exact swsRun_lit hE
  · exact extRun_lit hE
  · intro _
    exact extRun_lit hE

end CustomJson

namespace CustomJson

theorem bundle_comma (indent : String) (d : Nat) {a b : List Char}
    (ha : Bundle indent d a) (hb : Bundle indent d b) :
    Bundle indent d (a ++ ',' :: b) := by
  obtain ⟨hane, hah, hal, outa, litsa, hppa, hstra, hexia, hexoa⟩ := ha
  obtain ⟨hbne, hbh, hbl, outb, litsb, hppb, hstrb, hexib, hexob⟩ := hb
  obtain ⟨a0, at0, rfl⟩ : ∃ a0 at0, a = a0 :: at0 := by
    cases a with
    | nil => exact absurd rfl hane
    | cons x t => exact ⟨x, t, rfl⟩
  obtain ⟨b0, bt0, rfl⟩ : ∃ b0 bt0, b = b0 :: bt0 := by
    cases b with
    | nil => exact absurd rfl hbne
    | cons x t => exact ⟨x, t, rfl⟩
  have hlastw : ((a0 :: at0) ++ ',' :: b0 :: bt0).getLast? = (b0 :: bt0).getLast? := by
    rw [List.getLast?_append_of_ne_nil _ (by simp), List.getLast?_cons_cons]
  refine ⟨by simp, ?_, ?_,
    outa ++ (',' :: '\n' :: (repeatChars indent d ++ outb)), litsa ++ litsb,
    ?_, ?_, ?_, ?_⟩
  · intro c hc
    simp only [List.cons_append, List.head?_cons] at hc
    exact hah c (by rw [List.head?_cons, hc])
  · intro c hc
    rw [hlastw] at hc
    exact hbl c hc
  · intro p rest
    have hshape : ((a0 :: at0) ++ ',' :: b0 :: bt0) ++ rest =
        (a0 :: at0) ++ (',' :: ((b0 :: bt0) ++ rest)) := by simp
    rw [hshape, hppa p (',' :: ((b0 :: bt0) ++ rest)), ppGo_comma,
      hppb (some ',') rest, hlastw]
    simp [List.append_assoc]
  · intro hws
    rw [swsRun00_chunk (hstra hws), swsRun00_keep (by decide) (by decide),
      swsRun00_ws (by decide),
      swsRun00_wsList (fun c hc => hws c (mem_repeatChars hc)), hstrb hws]
  · rw [extRun00_chunk hexia, extRun00_skip (by decide), hexib]
  · intro hnq
    rw [extRun00_chunk (hexoa hnq), extRun00_skip (by decide),
      extRun00_skip (by decide),
      extRun00_skipList (fun c hc => hnq c (mem_repeatChars hc)), hexob hnq]

theorem bundle_colon (indent : String) (d : Nat) {a b : List Char}
    (ha : Bundle indent d a) (hb : Bundle indent d b) :
    Bundle indent d (a ++ ':' :: b) := by
  obtain ⟨hane, hah, hal, outa, litsa, hppa, hstra, hexia, hexoa⟩ := ha
  obtain ⟨hbne, hbh, hbl, outb, litsb, hppb, hstrb, hexib, hexob⟩ := hb
  obtain ⟨a0, at0, rfl⟩ : ∃ a0 at0, a = a0 :: at0 := by
    cases a with
    | nil => exact absurd rfl hane
    | cons x t => exact ⟨x, t, rfl⟩
  obtain ⟨b0, bt0, rfl⟩ : ∃ b0 bt0, b = b0 :: bt0 := by
    cases b with
    | nil => exact absurd rfl hbne
    | cons x t => exact ⟨x, t, rfl⟩
  have hlastw : ((a0 :: at0) ++ ':' :: b0 :: bt0).getLast? = (b0 :: bt0).getLast? := by
    rw [List.getLast?_append_of_ne_nil _ (by simp), List.getLast?_cons_cons]
  refine ⟨by simp, ?_, ?_, outa ++ (':' :: ' ' :: outb), litsa ++ litsb,
    ?_, ?_, ?_, ?_⟩
  · intro c hc
    simp only [List.cons_append, List.head?_cons] at hc
    exact hah c (by rw [List.head?_cons, hc])
  · intro c hc
    rw [hlastw] at hc
    exact hbl c hc
  · intro p rest
    have hshape : ((a0 :: at0) ++ ':' :: b0 :: bt0) ++ rest =
        (a0 :: at0) ++ (':' :: ((b0 :: bt0) ++ rest)) := by simp
    rw [hshape, hppa p (':' :: ((b0 :: bt0) ++ rest)), ppGo_colon,
      hppb (some ':') rest, hlastw]
    simp [List.append_assoc]
  · intro hws
    rw [swsRun00_chunk (hstra hws), swsRun00_keep (by decide) (by decide),
      swsRun00_ws (by decide), hstrb hws]
  · rw [extRun00_chunk hexia, extRun00_skip (by decide), hexib]
  · intro hnq
    rw [extRun00_chunk (hexoa hnq), extRun00_skip (by decide),
      extRun00_skip (by decide), hexob hnq]

theorem bundle_brackets (indent : String) (d : Nat) {o cl : Char} {body : List Char}
    (ho : o = '{' ∨ o = '[') (hc : cl = '}' ∨ cl = ']')
    (hb : Bundle indent (d + 1) body) :
    Bundle indent d (o :: body ++ [cl]) := by
  obtain ⟨hbne, hbh, hbl, outb, litsb, hppb, hstrb, hexib, hexob⟩ := hb
  obtain ⟨b0, bt0, rfl⟩ : ∃ b0 bt0, body = b0 :: bt0 := by
    cases body with
    | nil => exact absurd rfl hbne
    | cons x t => exact ⟨x, t, rfl⟩
  have honq : o ≠ '"' := by rcases ho with h | h <;> subst h <;> decide
  have hows : jsonWs o = false := by rcases ho with h | h <;> subst h <;> decide
  have hcnq : cl ≠ '"' := by rcases hc with h | h <;> subst h <;> decide
  have hcws : jsonWs cl = false := by rcases hc with h | h <;> subst h <;> decide
  have hlastw : (o :: (b0 :: bt0) ++ [cl]).getLast? = some cl := by
    rw [show o :: (b0 :: bt0) ++ [cl] = (o :: b0 :: bt0) ++ [cl] from rfl,
      List.getLast?_append_of_ne_nil _ (by simp)]
    rfl
  obtain ⟨lb, hlb⟩ := getLast?_cons_some b0 bt0
  have hlbn : ¬(some lb = some '{' ∨ some lb = some '[') := by
    intro hcon
    rcases hcon with hcon | hcon <;> injection hcon with hcon <;>
      exact absurd hcon (by
        first
        | exact (hbl lb hlb).1
        | exact (hbl lb hlb).2)
  refine ⟨by simp, ?_, ?_,
    o :: '\n' :: (repeatChars indent (d + 1) ++
      (outb ++ ('\n' :: (repeatChars indent d ++ [cl])))), litsb,
    ?_, ?_, ?_, ?_⟩
  · intro c hcd
    simp only [List.cons_append, List.head?_cons] at hcd
    injection hcd with hcd
    subst hcd
    rcases ho with h | h <;> subst h <;> exact ⟨by decide, by decide⟩
  · intro c hcd
    rw [hlastw] at hcd
    injection hcd with hcd
    subst hcd
    rcases hc with h | h <;> subst h <;> exact ⟨by decide, by decide⟩
  · intro p rest
    have hshape : (o :: (b0 :: bt0) ++ [cl]) ++ rest =
        o :: ((b0 :: bt0) ++ (cl :: rest)) := by simp
    have hhead : ¬(((b0 :: bt0) ++ (cl :: rest)).head? = some '}' ∨
        ((b0 :: bt0) ++ (cl :: rest)).head? = some ']') := by
      intro hcon
      have hb0 := hbh b0 (by rw [List.head?_cons])
      rcases hcon with hcon | hcon <;>
        simp only [List.cons_append, List.head?_cons] at hcon <;>
        injection hcon with hcon
      · exact absurd hcon hb0.1
      · exact absurd hcon hb0.2
    rw [hshape, ppGo_open indent d p ho hhead, hppb (some o) (cl :: rest), hlb,
      ppGo_close indent (d + 1) hc hlbn rest, hlastw]
    simp [List.append_assoc, Nat.add_sub_cancel]
  · intro hws
    rw [swsRun00_keep honq hows, swsRun00_ws (by decide),
      swsRun00_wsList (fun c hcm => hws c (mem_repeatChars hcm)),
      swsRun00_chunk (hstrb hws), swsRun00_ws (by decide),
      swsRun00_wsList (fun c hcm => hws c (mem_repeatChars hcm)),
      swsRun00_keep hcnq hcws]
    rfl
  · rw [show o :: (b0 :: bt0) ++ [cl] = o :: ((b0 :: bt0) ++ [cl]) from rfl,
      extRun00_skip honq, extRun00_chunk hexib, extRun00_skip hcnq]
    simp [extRun]
  · intro hnq
    rw [extRun00_skip honq, extRun00_skip (by decide),
      extRun00_skipList (fun c hcm => hnq c (mem_repeatChars hcm)),
      extRun00_chunk (hexob hnq), extRun00_skip (by decide),
      extRun00_skipList (fun c hcm => hnq c (mem_repeatChars hcm)),
      extRun00_skip hcnq]
    simp [extRun]

theorem bundle_empty (indent : String) (d : Nat) {o cl : Char}
    (ho : o = '{' ∨ o = '[') (hc : cl = '}' ∨ cl = ']') :
    Bundle indent d [o, cl] := by
  have honq : o ≠ '"' := by rcases ho with h | h <;> subst h <;> decide
  have hows : jsonWs o = false := by rcases ho with h | h <;> subst h <;> decide
  have hcnq : cl ≠ '"' := by rcases hc with h | h <;> subst h <;> decide
  have hcws : jsonWs cl = false := by rcases hc with h | h <;> subst h <;> decide
  refine ⟨by simp, ?_, ?_, [o, cl], [], ?_, ?_, ?_, ?_⟩
  · intro c hcd
    simp only [List.head?_cons] at hcd
    injection hcd with hcd
    subst hcd
    rcases ho with h | h <;> subst h <;> exact ⟨by decide, by decide⟩
  · intro c hcd
    simp only [List.getLast?_cons_cons, List.getLast?_singleton] at hcd
    injection hcd with hcd
    subst hcd
    rcases hc with h | h <;> subst h <;> exact ⟨by decide, by decide⟩
  · intro p rest
    have hnext : (cl :: rest).head? = some '}' ∨ (cl :: rest).head? = some ']' := by
      rcases hc with h | h <;> subst h
      · exact Or.inl rfl
      · exact Or.inr rfl
    have hprev : some o = some '{' ∨ some o = some '[' := by
      rcases ho with h | h <;> subst h
      · exact Or.inl rfl
      · exact Or.inr rfl
    rw [show ([o, cl] : List Char) ++ rest = o :: (cl :: rest) from rfl,
      ppGo_open_nosplit indent d p ho hnext,
      ppGo_close_nosplit indent d hc hprev rest]
    rfl
  · intro _
    rw [swsRun00_keep honq hows, swsRun00_keep hcnq hcws]
    rfl
  · rw [extRun00_skip honq, extRun00_skip hcnq]
    rfl
  · intro _
    rw [extRun00_skip honq, extRun00_skip hcnq]
    rfl

end CustomJson

namespace CustomJson

-- ---------------------------------------------------------------------
-- Character classes of encoder tokens
-- ---------------------------------------------------------------------

theorem tokSafe_of_numChar {c : Char} (h : numChar c = true) : tokSafe c := by
  simp only [numChar, Bool.or_eq_true, decide_eq_true_eq] at h
  rcases h with ((((h | h) | h) | h) | h) | h
  · refine ⟨⟨?_, ?_, ?_, ?_, ?_, ?_, ?_⟩, ?_⟩ <;>
      first
      | (intro heq; rw [heq] at h; exact absurd h (by decide))
      | (cases hw : jsonWs c
         · rfl
         · exfalso
           simp only [jsonWs, Bool.or_eq_true, decide_eq_true_eq] at hw
           rcases hw with ((hw | hw) | hw) | hw <;> rw [hw] at h <;>
             exact absurd h (by decide))
  · subst h; exact ⟨by decide, by decide⟩
  · subst h; exact ⟨by decide, by decide⟩
  · subst h; exact ⟨by decide, by decide⟩
  · subst h; exact ⟨by decide, by decide⟩
  · subst h; exact ⟨by decide, by decide⟩

theorem goodNumRender_finite {q : ℚ} {t : String}
    (h : goodNumRender (.finite q t) = true) :
    t.data ≠ [] ∧ ∀ c ∈ t.data, tokSafe c := by
  simp only [goodNumRender, Bool.and_eq_true] at h
  obtain ⟨h1, h2⟩ := h
  constructor
  · intro h0
    rw [h0] at h1
    simp at h1
  · intro c hc
    exact tokSafe_of_numChar (List.all_eq_true.mp h2 c hc)

theorem goodISO_chars {iso : String} (h : goodISO iso = true) :
    ∀ c ∈ iso.data, c ≠ '"' ∧ c ≠ '\\' := by
  intro c hc
  have h2 := List.all_eq_true.mp h c hc
  simp only [Bool.and_eq_true, bne_iff_ne] at h2
  exact h2

-- ---------------------------------------------------------------------
-- The main induction: every encoder output is a Bundle
-- ---------------------------------------------------------------------

mutual

theorem bundle_val (indent : String) (d : Nat) (v : JSValue) (s : String)
    (hwf : wellFormed v = true) (hs : serializeValue v = some s) :
    Bundle indent d s.data := by
  cases v with
  | undef => simp [serializeValue] at hs
  | funcVal => simp [serializeValue] at hs
  | symVal => simp [serializeValue] at hs
  | jsNull =>
      obtain rfl : ("null" : String) = s := Option.some.inj hs
      exact bundle_tok indent d (by decide) (by decide)
  | boolean b =>
      cases b with
      | true =>
          obtain rfl : ("true" : String) = s := Option.some.inj hs
          exact bundle_tok indent d (by decide) (by decide)
      | false =>
          obtain rfl : ("false" : String) = s := Option.some.inj hs
          exact bundle_tok indent d (by decide) (by decide)
  | strVal str =>
      obtain rfl : ("\"" ++ escapeString str ++ "\"") = s := Option.some.inj hs
      have hdata : ("\"" ++ escapeString str ++ "\"").data =
          '"' :: escList str.data ++ ['"'] := by
        simp [String.data_append, escapeString]
      rw [hdata]
      exact bundle_lit indent d (escOK_escList str.data)
  | number x =>
      cases x with
      | finite q t =>
          obtain rfl : t = s := Option.some.inj hs
          obtain ⟨hne2, hall⟩ := goodNumRender_finite hwf
          exact bundle_tok indent d hne2 hall
      | posInf =>
          obtain rfl : ("null" : String) = s := Option.some.inj hs
          exact bundle_tok indent d (by decide) (by decide)
      | negInf =>
          obtain rfl : ("null" : String) = s := Option.some.inj hs
          exact bundle_tok indent d (by decide) (by decide)
      | nan =>
          obtain rfl : ("null" : String) = s := Option.some.inj hs
          exact bundle_tok indent d (by decide) (by decide)
  | double x tj =>
      cases x with
      | finite q t =>
          obtain ⟨hne2, hall⟩ := goodNumRender_finite (q := q) hwf
          by_cases hq : q.den = 1
          · have hs2 : serializeValue (.double (.finite q t) tj) = some (t ++ ".0") := by
              simp [serializeValue, JSNum.isFiniteNum, JSNum.isIntegerNum, JSNum.render, hq]
            rw [hs2] at hs
            obtain rfl : (t ++ ".0") = s := Option.some.inj hs
            rw [String.data_append]
            refine bundle_tok indent d (by simp [hne2]) ?_
            intro c hc
            rcases List.mem_append.mp hc with hc | hc
            · exact hall c hc
            · simp at hc
              rcases hc with hc | hc <;> subst hc <;> exact ⟨by decide, by decide⟩
          · have hs2 : serializeValue (.double (.finite q t) tj) = some t := by
              simp [serializeValue, JSNum.isFiniteNum, JSNum.isIntegerNum, JSNum.render, hq]
            rw [hs2] at hs
            obtain rfl : t = s := Option.some.inj hs
            exact bundle_tok indent d hne2 hall
      | posInf =>
          obtain rfl : ("null" : String) = s := Option.some.inj hs
          exact bundle_tok indent d (by decide) (by decide)
      | negInf =>
          obtain rfl : ("null" : String) = s := Option.some.inj hs
          exact bundle_tok indent d (by decide) (by decide)
      | nan =>
          obtain rfl : ("null" : String) = s := Option.some.inj hs
          exact bundle_tok indent d (by decide) (by decide)
  | date iso =>
      obtain rfl : ("\"" ++ iso ++ "\"") = s := Option.some.inj hs
      have hdata : ("\"" ++ iso ++ "\"").data = '"' :: iso.data ++ ['"'] := by
        simp [String.data_append]
      rw [hdata]
      exact bundle_lit indent d (escOK_plainList (goodISO_chars hwf))
  | custom conv =>
      have hs2 : serializeValue conv = some s := hs
      have hwf2 : wellFormed conv = true := hwf
      exact bundle_val indent d conv s hwf2 hs2
  | arr items =>
      cases items with
      | nil =>
          obtain rfl : ("[" ++ joinComma (serializeList []) ++ "]") = s :=
            Option.some.inj hs
          exact bundle_empty indent d (Or.inr rfl) (Or.inr rfl)
      | cons w ws =>
          obtain rfl : ("[" ++ joinComma (serializeList (w :: ws)) ++ "]") = s :=
            Option.some.inj hs
          have hdata : ("[" ++ joinComma (serializeList (w :: ws)) ++ "]").data =
              '[' :: (joinComma (serializeList (w :: ws))).data ++ [']'] := by
            simp [String.data_append]
          rw [hdata]
          exact bundle_brackets indent d (Or.inr rfl) (Or.inr rfl)
            (bundle_items indent (d + 1) (w :: ws) (by simp) hwf)
  | obj fields =>
      obtain rfl : ("\x7b" ++ joinComma (serializeFields fields) ++ "\x7d") = s :=
        Option.some.inj hs
      by_cases hsf : serializeFields fields = []
      · rw [hsf]
        exact bundle_empty indent d (Or.inl rfl) (Or.inl rfl)
      · have hdata : ("\x7b" ++ joinComma (serializeFields fields) ++ "\x7d").data =
            '{' :: (joinComma (serializeFields fields)).data ++ ['}'] := by
          simp [String.data_append]
        rw [hdata]
        exact bundle_brackets indent d (Or.inl rfl) (Or.inl rfl)
          (bundle_fields indent (d + 1) fields hwf hsf)

theorem bundle_items (indent : String) (d : Nat) (items : List JSValue)
    (hne : items ≠ []) (hwf : wellFormedList items = true) :
    Bundle indent d (joinComma (serializeList items)).data := by
  cases items with
  | nil => exact absurd rfl hne
  | cons v vs =>
      have hwf2 : wellFormed v = true ∧ wellFormedList vs = true := by
        have h2 : (wellFormed v && wellFormedList vs) = true := hwf
        exact Bool.and_eq_true_iff.mp h2
      have hpart : Bundle indent d ((serializeValue v).getD ("null")).data := by
        cases hv : serializeValue v with
        | none =>
            exact bundle_tok indent d (by decide) (by decide)
        | some sv =>
            exact bundle_val indent d v sv hwf2.1 hv
      cases vs with
      | nil => exact hpart
      | cons w ws =>
          have hshape : joinComma (serializeList (v :: w :: ws)) =
              ((serializeValue v).getD ("null")) ++ "," ++
                joinComma (serializeList (w :: ws)) := rfl
          have hdata : (((serializeValue v).getD ("null")) ++ "," ++
              joinComma (serializeList (w :: ws))).data =
              ((serializeValue v).getD ("null")).data ++
                ',' :: (joinComma (serializeList (w :: ws))).data := by
            simp [String.data_append]
          rw [hshape, hdata]
          exact bundle_comma indent d hpart
            (bundle_items indent d (w :: ws) (by simp) hwf2.2)

theorem bundle_fields (indent : String) (d : Nat) (fields : List (String × JSValue))
    (hwf : wellFormedFields fields = true) (hne : serializeFields fields ≠ []) :
    Bundle indent d (joinComma (serializeFields fields)).data := by
  cases fields with
  | nil => exact absurd rfl hne
  | cons f fs =>
      obtain ⟨k, v⟩ := f
      have hwf2 : wellFormed v = true ∧ wellFormedFields fs = true := by
        have h2 : (wellFormed v && wellFormedFields fs) = true := hwf
        exact Bool.and_eq_true_iff.mp h2
      cases hv : serializeValue v with
      | none =>
          have hstep : serializeFields ((k, v) :: fs) = serializeFields fs := by
            simp [serializeFields, hv]
          rw [hstep] at hne ⊢
          exact bundle_fields indent d fs hwf2.2 hne
      | some sv =>
          have hstep : serializeFields ((k, v) :: fs) =
              ("\"" ++ escapeString k ++ "\":" ++ sv) :: serializeFields fs := by
            simp [serializeFields, hv]
          have hpair : Bundle indent d ("\"" ++ escapeString k ++ "\":" ++ sv).data := by
            have hdata : ("\"" ++ escapeString k ++ "\":" ++ sv).data =
                ('"' :: escList k.data ++ ['"']) ++ ':' :: sv.data := by
              simp [String.data_append, escapeString]
            rw [hdata]
            exact bundle_colon indent d (bundle_lit indent d (escOK_escList k.data))
              (bundle_val indent d v sv hwf2.1 hv)
          cases hfs : serializeFields fs with
          | nil =>
              rw [hstep, hfs]
              exact hpair
          | cons q qs =>
              rw [hstep, hfs]
              have hdata2 : (joinComma (("\"" ++ escapeString k ++ "\":" ++ sv) ::
                  q :: qs)).data =
                  ("\"" ++ escapeString k ++ "\":" ++ sv).data ++
                    ',' :: (joinComma (q :: qs)).data := by
                simp [joinComma, String.data_append]
              rw [hdata2]
              refine bundle_comma indent d hpair ?_
              rw [← hfs]
              exact bundle_fields indent d fs hwf2.2 (by rw [hfs]; simp)

end

end CustomJson

namespace CustomJson

theorem ppGo_total {indent : String} {s : String} {out : List Char}
    (hpp : ∀ (p : Option Char) (rest : List Char),
      ppGo indent false 0 p (s.data ++ rest) =
        out ++ ppGo indent false 0 s.data.getLast? rest) :
    ppGo indent false 0 none s.data = out := by
  have h2 := hpp none []
  rw [List.append_nil] at h2
  rw [h2, show ppGo indent false 0 s.data.getLast? [] = [] from rfl, List.append_nil]

-- ---------------------------------------------------------------------
-- Claim C3
-- ---------------------------------------------------------------------

/-- C3 counterexample: "[1,2]" is encoder output containing no string
literal at all, yet reflowing it with the one-character indent unit
consisting of a double quote inserts quote characters, so the output
parses with a string literal the input never had. -/
theorem C3_cex :
    serializeValue (.arr [.number (.finite 1 ("1")), .number (.finite 2 ("2"))]) =
      some ("[1,2]") ∧
    stringLiterals (prettyPrint ("[1,2]") ("\"")) ≠ stringLiterals ("[1,2]") := by
  exact ⟨rfl, by decide⟩

/-- C3 (amended): for every encoder output and every indent unit that
contains no double-quote character, the reflow pass preserves the string
literal structure exactly: the sequence of string literal contents of
the output equals that of the input (so no newline or indent text is
ever inserted inside a literal).  The wellFormed hypothesis populates
the model the way the JS runtime does (numeric texts are numeric
tokens, ISO date texts are quote- and backslash-free). -/
theorem C3_literals_preserved :
    ∀ (v : JSValue) (s indent : String),
      wellFormed v = true → serializeValue v = some s →
      (∀ c ∈ indent.data, c ≠ '"') →
      stringLiterals (prettyPrint s indent) = stringLiterals s := by
  intro v s indent hwf hs hnq
  obtain ⟨hne, hh, hl, out, lits, hpp, hstrip, hexti, hexto⟩ :=
    bundle_val indent 0 v s hwf hs
  have heq : ppGo indent false 0 none s.data = out := ppGo_total hpp
  unfold prettyPrint stringLiterals
  rw [heq]
  show ((extRun (none, false) out).2).map String.mk =
    ((extRun (none, false) s.data).2).map String.mk
  rw [hexto hnq, hexti]

/-- C3 witness: the amended statement at the array containing the
string "a", reflowed with the quote-free indent unit "ab". -/
theorem C3_literals_preserved_w :
    stringLiterals (prettyPrint ("[\"a\"]") ("ab")) = stringLiterals ("[\"a\"]") :=
  C3_literals_preserved (.arr [.strVal ("a")]) ("[\"a\"]") ("ab")
    (by decide) rfl (by decide)

-- ---------------------------------------------------------------------
-- Claim C4
-- ---------------------------------------------------------------------

/-- C4 counterexample: reflowing the encoder output "[1]" with the
non-whitespace indent unit "x" puts an x into the output outside any
string literal; stripping whitespace outside literals keeps it, so the
round trip does not reproduce the input. -/
theorem C4_cex :
    serializeValue (.arr [.number (.finite 1 ("1"))]) = some ("[1]") ∧
    stripWs (prettyPrint ("[1]") ("x")) ≠ ("[1]") := by
  exact ⟨rfl, by decide⟩

/-- C4 (amended): for every encoder output and every indent unit all of
whose characters are whitespace, removing all whitespace outside string
literals from the reflowed text reproduces the minified text exactly.
The wellFormed hypothesis populates the model the way the JS runtime
does. -/
theorem C4_strip_roundtrip :
    ∀ (v : JSValue) (s indent : String),
      wellFormed v = true → serializeValue v = some s →
      (∀ c ∈ indent.data, jsonWs c = true) →
      stripWs (prettyPrint s indent) = s := by
  intro v s indent hwf hs hws
  obtain ⟨hne, hh, hl, out, lits, hpp, hstrip, hexti, hexto⟩ :=
    bundle_val indent 0 v s hwf hs
  have heq : ppGo indent false 0 none s.data = out := ppGo_total hpp
  unfold prettyPrint stripWs
  rw [heq]
  show String.mk (swsRun (false, false) out).2 = s
  rw [hstrip hws]

/-- C4 witness: the amended statement at the array containing the
string "a", reflowed with the two-space indent unit. -/
theorem C4_strip_roundtrip_w :
    stripWs (prettyPrint ("[\"a\"]") ("  ")) = ("[\"a\"]") :=
  C4_strip_roundtrip (.arr [.strVal ("a")]) ("[\"a\"]") ("  ")
    (by decide) rfl (by decide)

end CustomJson
